import Mathlib

/-!
# Verification of `stl-kit` containers against their specification

Shallow embedding of the container library's heap (`src/structures/heap.ts`,
also instantiated verbatim by the `PriorityQueue` in the repository),
doubly-linked list (`src/structures/linked-list.ts`), stack, queue and deque,
together with proofs of the specified invariants.

Conventions of the embedding:
* The heap's private dense array `#nodes : T[]` is a `List α`; JavaScript
  non-null indexing `nodes[i]!` becomes `nth l i` (`List.getD` with an
  `Inhabited` default — every access performed by the code is in bounds).
* The comparator `compareFn : (a, b) => number` is `cmp : α → α → Int`.
  The spec's "caller-supplied total-order comparator" (positive result means
  the first argument has strictly higher priority) is captured by `LawfulCmp`.
* Exceptions become an explicit `Except JsError` channel; a stateful method
  returns the state as mutated up to the point of the throw, so "no partial
  mutation is observable" is a provable statement, not a modelling artifact.
-/

namespace StlKit

/-- JavaScript error values thrown by the library (kind and message). -/
inductive JsError where
  | error : String → JsError
  | rangeError : String → JsError
  | typeError : String → JsError
deriving DecidableEq, Repr

/-- `nth l i` is the TypeScript `l[i]!`: element at `i`, default if absent. -/
def nth {α : Type} [Inhabited α] (l : List α) (i : Nat) : α :=
  l.getD i default

/-- `swapL l i j` is the heap's private `#swap(i, j)`:
`temp = nodes[i]; nodes[i] = nodes[j]; nodes[j] = temp`. -/
def swapL {α : Type} [Inhabited α] (l : List α) (i j : Nat) : List α :=
  (l.set i (nth l j)).set j (nth l i)

section NthLemmas

variable {α : Type} [Inhabited α]

theorem nth_set_self {l : List α} {i : Nat} (h : i < l.length) (a : α) :
    nth (l.set i a) i = a := by
  simp [nth, List.getD_eq_getElem?_getD, List.getElem?_set_self h]

theorem nth_set_ne {l : List α} {i j : Nat} (h : i ≠ j) (a : α) :
    nth (l.set i a) j = nth l j := by
  simp [nth, List.getD_eq_getElem?_getD, List.getElem?_set_ne h]

@[simp] theorem length_swapL (l : List α) (i j : Nat) :
    (swapL l i j).length = l.length := by
  simp [swapL]

theorem nth_swapL_fst {l : List α} {i j : Nat} (hi : i < l.length) (hij : i ≠ j) :
    nth (swapL l i j) i = nth l j := by
  rw [swapL, nth_set_ne (Ne.symm hij), nth_set_self hi]

theorem nth_swapL_snd {l : List α} {i j : Nat} (hj : j < l.length) :
    nth (swapL l i j) j = nth l i := by
  rw [swapL, nth_set_self]
  simpa using hj

theorem nth_swapL_other {l : List α} {i j k : Nat} (hki : k ≠ i) (hkj : k ≠ j) :
    nth (swapL l i j) k = nth l k := by
  rw [swapL, nth_set_ne (Ne.symm hkj), nth_set_ne (Ne.symm hki)]

theorem nth_append_left {l : List α} {x : α} {i : Nat} (h : i < l.length) :
    nth (l ++ [x]) i = nth l i := by
  simp [nth, List.getD_eq_getElem?_getD, List.getElem?_append_left h]

theorem set_nth_self {l : List α} {i : Nat} (h : i < l.length) :
    l.set i (nth l i) = l := by
  apply List.ext_getElem?
  intro n
  by_cases hn : n = i
  · subst hn
    rw [List.getElem?_set_self h]
    simp [nth, List.getD_eq_getElem?_getD, List.getElem?_eq_getElem h]
  · rw [List.getElem?_set_ne (Ne.symm hn)]

/-- Helper for the swap permutation: prefixing the displaced element. -/
theorem cons_set_perm : ∀ (l : List α) (j : Nat) (a : α), j < l.length →
    (nth l j :: l.set j a).Perm (a :: l)
  | x :: xs, 0, a, _ => by
    simpa [nth] using List.Perm.swap a x xs
  | x :: xs, j + 1, a, h => by
    have hj : j < xs.length := by simpa using h
    have h1 : (nth (x :: xs) (j + 1) :: (x :: xs).set (j + 1) a)
        = nth xs j :: x :: xs.set j a := by simp [nth, List.getD]
    rw [h1]
    exact ((List.Perm.swap x (nth xs j) (xs.set j a)).trans
      ((cons_set_perm xs j a hj).cons x)).trans (List.Perm.swap a x xs)

theorem swapL_perm_ne : ∀ (l : List α) (i j : Nat), i < l.length → j < l.length →
    i ≠ j → (swapL l i j).Perm l := by
  intro l
  induction l with
  | nil => intro i j hi ; simp at hi
  | cons x xs ih =>
    intro i j hi hj hij
    match i, j with
    | 0, 0 => exact absurd rfl hij
    | 0, jj + 1 =>
      have hjj : jj < xs.length := by simpa using hj
      have h1 : swapL (x :: xs) 0 (jj + 1) = nth xs jj :: xs.set jj x := by
        simp [swapL, nth, List.getD]
      rw [h1]
      exact cons_set_perm xs jj x hjj
    | ii + 1, 0 =>
      have hii : ii < xs.length := by simpa using hi
      have h1 : swapL (x :: xs) (ii + 1) 0 = nth xs ii :: xs.set ii x := by
        simp [swapL, nth, List.getD]
      rw [h1]
      exact cons_set_perm xs ii x hii
    | ii + 1, jj + 1 =>
      have hii : ii < xs.length := by simpa using hi
      have hjj : jj < xs.length := by simpa using hj
      have hij' : ii ≠ jj := fun h => hij (by rw [h])
      have h1 : swapL (x :: xs) (ii + 1) (jj + 1) = x :: swapL xs ii jj := by
        simp [swapL, nth, List.getD]
      rw [h1]
      exact (ih ii jj hii hjj hij').cons x

theorem swapL_perm (l : List α) (i j : Nat) (hi : i < l.length)
    (hj : j < l.length) : (swapL l i j).Perm l := by
  by_cases hij : i = j
  · subst hij
    rw [swapL, List.set_set, set_nth_self hi]
  · exact swapL_perm_ne l i j hi hj hij

theorem mem_of_mem_swapL {l : List α} {i j : Nat} (hi : i < l.length)
    (hj : j < l.length) {x : α} (hx : x ∈ swapL l i j) : x ∈ l :=
  (swapL_perm l i j hi hj).mem_iff.mp hx

end NthLemmas

/-! ## Binary heap (`src/structures/heap.ts`; the `PriorityQueue` variant in
`src/unnamed/part_013` contains the identical constructor, `#heapifyUp`,
`#heapifyDown`, `push`, `pop` and `emplace` code over its `#heap` array). -/

/-- The spec's notion of a caller-supplied total-order comparator
`compare : (T, T) -> signed integer`, positive meaning the first argument has
strictly higher priority: the sign is antisymmetric and the induced
"priority at least" relation `0 ≤ cmp a b` is transitive.
The default numeric comparator `(a, b) => a - b` satisfies these laws. -/
structure LawfulCmp {α : Type} (cmp : α → α → Int) : Prop where
  flip_nonneg : ∀ a b, cmp a b ≤ 0 → 0 ≤ cmp b a
  flip_nonpos : ∀ a b, 0 ≤ cmp a b → cmp b a ≤ 0
  trans_nonneg : ∀ a b c, 0 ≤ cmp a b → 0 ≤ cmp b c → 0 ≤ cmp a c

theorem LawfulCmp.self_nonneg {α : Type} {cmp : α → α → Int}
    (hc : LawfulCmp cmp) (a : α) : 0 ≤ cmp a a := by
  rcases le_or_lt (cmp a a) 0 with h | h
  · exact hc.flip_nonneg a a h
  · exact le_of_lt h

section HeapDefs

variable {α : Type} [Inhabited α]

/-- First half of `#heapifyDown`'s selection: `best` after the left-child test. -/
def bestChild1 (cmp : α → α → Int) (nodes : List α) (cIdx : Nat) : Nat :=
  if 2 * cIdx + 1 < nodes.length ∧
      cmp (nth nodes cIdx) (nth nodes (2 * cIdx + 1)) < 0 then 2 * cIdx + 1
  else cIdx

/-- `best` after both child tests of `#heapifyDown`'s loop body. -/
def bestChild (cmp : α → α → Int) (nodes : List α) (cIdx : Nat) : Nat :=
  if 2 * cIdx + 2 < nodes.length ∧
      cmp (nth nodes (bestChild1 cmp nodes cIdx)) (nth nodes (2 * cIdx + 2)) < 0
  then 2 * cIdx + 2
  else bestChild1 cmp nodes cIdx

theorem bestChild1_spec (cmp : α → α → Int) (nodes : List α) (cIdx : Nat) :
    (bestChild1 cmp nodes cIdx = cIdx ∧
      ¬(2 * cIdx + 1 < nodes.length ∧
        cmp (nth nodes cIdx) (nth nodes (2 * cIdx + 1)) < 0)) ∨
    (bestChild1 cmp nodes cIdx = 2 * cIdx + 1 ∧ 2 * cIdx + 1 < nodes.length ∧
      cmp (nth nodes cIdx) (nth nodes (2 * cIdx + 1)) < 0) := by
  unfold bestChild1
  split
  · next hl => exact Or.inr ⟨rfl, hl⟩
  · next hl => exact Or.inl ⟨rfl, hl⟩

theorem bestChild_spec (cmp : α → α → Int) (nodes : List α) (cIdx : Nat) :
    (bestChild cmp nodes cIdx = 2 * cIdx + 2 ∧ 2 * cIdx + 2 < nodes.length ∧
      cmp (nth nodes (bestChild1 cmp nodes cIdx)) (nth nodes (2 * cIdx + 2)) < 0) ∨
    (bestChild cmp nodes cIdx = bestChild1 cmp nodes cIdx ∧
      ¬(2 * cIdx + 2 < nodes.length ∧
        cmp (nth nodes (bestChild1 cmp nodes cIdx)) (nth nodes (2 * cIdx + 2)) < 0)) := by
  unfold bestChild
  split
  · next hr => exact Or.inl ⟨rfl, hr⟩
  · next hr => exact Or.inr ⟨rfl, hr⟩

theorem bestChild_lt_length {cmp : α → α → Int} {nodes : List α} {cIdx : Nat}
    (h : bestChild cmp nodes cIdx ≠ cIdx) :
    cIdx < bestChild cmp nodes cIdx ∧ bestChild cmp nodes cIdx < nodes.length := by
  rcases bestChild_spec cmp nodes cIdx with ⟨he, hlt, _⟩ | ⟨he, _⟩
  · exact ⟨by omega, by omega⟩
  · rcases bestChild1_spec cmp nodes cIdx with ⟨h1, _⟩ | ⟨h1, hlt, _⟩
    · rw [he, h1] at h
      exact absurd rfl h
    · rw [he, h1]
      exact ⟨by omega, by omega⟩

/-- If `#heapifyDown`'s loop body selects `best = cIdx` (no swap), the current
node already outranks each existing child. -/
theorem bestChild_eq_self {cmp : α → α → Int} {nodes : List α} {cIdx : Nat}
    (h : bestChild cmp nodes cIdx = cIdx) :
    (2 * cIdx + 1 < nodes.length →
      0 ≤ cmp (nth nodes cIdx) (nth nodes (2 * cIdx + 1))) ∧
    (2 * cIdx + 2 < nodes.length →
      0 ≤ cmp (nth nodes cIdx) (nth nodes (2 * cIdx + 2))) := by
  rcases bestChild_spec cmp nodes cIdx with ⟨he, _, _⟩ | ⟨he, hr⟩
  · omega
  · rcases bestChild1_spec cmp nodes cIdx with ⟨h1, hl⟩ | ⟨h1, _, _⟩
    · rw [h1] at hr
      constructor
      · intro hlen
        by_contra hneg
        exact hl ⟨hlen, by omega⟩
      · intro hlen
        by_contra hneg
        exact hr ⟨hlen, by omega⟩
    · rw [h1] at he
      omega

/-- If `#heapifyDown`'s loop body selects a child `best ≠ cIdx`, then (for a
lawful comparator) `best` is an existing child of `cIdx` that outranks the
current node and every existing child of `cIdx`. -/
theorem bestChild_ne_self {cmp : α → α → Int} (hc : LawfulCmp cmp)
    {nodes : List α} {cIdx : Nat} (h : bestChild cmp nodes cIdx ≠ cIdx) :
    (bestChild cmp nodes cIdx = 2 * cIdx + 1 ∨
      bestChild cmp nodes cIdx = 2 * cIdx + 2) ∧
    bestChild cmp nodes cIdx < nodes.length ∧
    0 ≤ cmp (nth nodes (bestChild cmp nodes cIdx)) (nth nodes cIdx) ∧
    (∀ j, (j = 2 * cIdx + 1 ∨ j = 2 * cIdx + 2) → j < nodes.length →
      0 ≤ cmp (nth nodes (bestChild cmp nodes cIdx)) (nth nodes j)) := by
  rcases bestChild_spec cmp nodes cIdx with ⟨he, hrlen, hrcmp⟩ | ⟨he, hr⟩
  · -- best = right child
    rcases bestChild1_spec cmp nodes cIdx with ⟨h1, hl⟩ | ⟨h1, hllen, hlcmp⟩
    · -- b1 = cIdx: right beats current; left (if any) loses to current
      rw [h1] at hrcmp
      have hrc : 0 ≤ cmp (nth nodes (2 * cIdx + 2)) (nth nodes cIdx) :=
        hc.flip_nonneg _ _ (le_of_lt hrcmp)
      refine ⟨Or.inr he, by omega, by rw [he]; exact hrc, ?_⟩
      intro j hj hjlen
      rcases hj with hj | hj
      · subst hj
        have hcl : 0 ≤ cmp (nth nodes cIdx) (nth nodes (2 * cIdx + 1)) := by
          by_contra hneg
          exact hl ⟨hjlen, by omega⟩
        rw [he]
        exact hc.trans_nonneg _ _ _ hrc hcl
      · subst hj
        rw [he]
        exact hc.self_nonneg _
    · -- b1 = left child: right beats left, left beats current
      rw [h1] at hrcmp
      have hrl : 0 ≤ cmp (nth nodes (2 * cIdx + 2)) (nth nodes (2 * cIdx + 1)) :=
        hc.flip_nonneg _ _ (le_of_lt hrcmp)
      have hlc : 0 ≤ cmp (nth nodes (2 * cIdx + 1)) (nth nodes cIdx) :=
        hc.flip_nonneg _ _ (le_of_lt hlcmp)
      have hrc : 0 ≤ cmp (nth nodes (2 * cIdx + 2)) (nth nodes cIdx) :=
        hc.trans_nonneg _ _ _ hrl hlc
      refine ⟨Or.inr he, by omega, by rw [he]; exact hrc, ?_⟩
      intro j hj hjlen
      rcases hj with hj | hj
      · subst hj
        rw [he]
        exact hrl
      · subst hj
        rw [he]
        exact hc.self_nonneg _
  · -- best = b1, which must be the left child
    rcases bestChild1_spec cmp nodes cIdx with ⟨h1, _⟩ | ⟨h1, hllen, hlcmp⟩
    · rw [he, h1] at h
      exact absurd rfl h
    · have hbl : bestChild cmp nodes cIdx = 2 * cIdx + 1 := by rw [he, h1]
      rw [h1] at hr
      have hlc : 0 ≤ cmp (nth nodes (2 * cIdx + 1)) (nth nodes cIdx) :=
        hc.flip_nonneg _ _ (le_of_lt hlcmp)
      refine ⟨Or.inl hbl, by omega, by rw [hbl]; exact hlc, ?_⟩
      intro j hj hjlen
      rcases hj with hj | hj
      · subst hj
        rw [hbl]
        exact hc.self_nonneg _
      · subst hj
        have : 0 ≤ cmp (nth nodes (2 * cIdx + 1)) (nth nodes (2 * cIdx + 2)) := by
          by_contra hneg
          exact hr ⟨hjlen, by omega⟩
        rw [hbl]
        exact this

/-- `#heapifyDown(cIdx)`: repeatedly swap the current node with its
highest-priority child until it outranks both children. -/
def heapifyDown (cmp : α → α → Int) (nodes : List α) (cIdx : Nat) : List α :=
  if h : bestChild cmp nodes cIdx = cIdx then nodes
  else heapifyDown cmp (swapL nodes (bestChild cmp nodes cIdx) cIdx)
    (bestChild cmp nodes cIdx)
termination_by nodes.length - cIdx
decreasing_by
  have := bestChild_lt_length h
  simp only [length_swapL]
  omega

/-- `#heapifyUp(cIdx)`: repeatedly swap the current node with its parent at
`floor((cIdx + 1) / 2) - 1` while it outranks the parent. -/
def heapifyUp (cmp : α → α → Int) (nodes : List α) (cIdx : Nat) : List α :=
  if 0 < cIdx then
    if cmp (nth nodes cIdx) (nth nodes ((cIdx + 1) / 2 - 1)) ≤ 0 then nodes
    else heapifyUp cmp (swapL nodes ((cIdx + 1) / 2 - 1) cIdx) ((cIdx + 1) / 2 - 1)
  else nodes
termination_by cIdx
decreasing_by omega

/-- `push(node)`: append at the end, then sift up from the new last index. -/
def pushHeap (cmp : α → α → Int) (nodes : List α) (node : α) : List α :=
  heapifyUp cmp (nodes ++ [node]) nodes.length

/-- `pop()`: `none` models the `Heap is empty, cannot pop element.` throw;
a one-element heap returns its element; otherwise the root is returned, the
last element is moved to index 0 and sifted down. -/
def popHeap (cmp : α → α → Int) (nodes : List α) : Option (α × List α) :=
  match nodes with
  | [] => none
  | [x] => some (x, [])
  | _ =>
    some (nth nodes 0,
      heapifyDown cmp ((nodes.dropLast).set 0 (nth nodes (nodes.length - 1))) 0)

/-- The constructor's heapify loop over a copy of `initValues`:
`for (let i = Math.floor(len / 2) - 1; i >= 0; i--) this.#heapifyDown(i)`,
guarded by `len > 1`. -/
def buildHeap (cmp : α → α → Int) (initValues : List α) : List α :=
  if 1 < initValues.length then
    ((List.range (initValues.length / 2)).reverse).foldl (heapifyDown cmp) initValues
  else initValues

/-- The spec's heap property over the full storage: every parent at `i`
compares `≥ 0` against each existing child at `2i+1` / `2i+2`. -/
def heapProp (cmp : α → α → Int) (l : List α) : Prop :=
  ∀ i j, j < l.length → (j = 2 * i + 1 ∨ j = 2 * i + 2) →
    0 ≤ cmp (nth l i) (nth l j)

/-- The heap property restricted to parents at indices `≥ k` (the invariant
of the constructor's bottom-up heapify loop). -/
def heapPropFrom (cmp : α → α → Int) (l : List α) (k : Nat) : Prop :=
  ∀ i j, j < l.length → (j = 2 * i + 1 ∨ j = 2 * i + 2) → k ≤ i →
    0 ≤ cmp (nth l i) (nth l j)

theorem heapPropFrom_zero {cmp : α → α → Int} {l : List α} :
    heapPropFrom cmp l 0 ↔ heapProp cmp l := by
  constructor
  · intro h i j hj hc
    exact h i j hj hc (Nat.zero_le i)
  · intro h i j hj hc _
    exact h i j hj hc

end HeapDefs

section HeapProofs

variable {α : Type} [Inhabited α]

theorem child_parent_unique {i i' j : Nat} (h : j = 2 * i + 1 ∨ j = 2 * i + 2)
    (h' : j = 2 * i' + 1 ∨ j = 2 * i' + 2) : i = i' := by omega

theorem length_heapifyDown (cmp : α → α → Int) (l : List α) (c : Nat) :
    (heapifyDown cmp l c).length = l.length := by
  rw [heapifyDown]
  split
  · rfl
  · next h =>
    rw [length_heapifyDown cmp _ (bestChild cmp l c), length_swapL]
termination_by l.length - c
decreasing_by
  rename_i h
  have := bestChild_lt_length h
  simp only [length_swapL]
  omega

theorem heapifyDown_perm (cmp : α → α → Int) (l : List α) (c : Nat) :
    (heapifyDown cmp l c).Perm l := by
  rw [heapifyDown]
  split
  · exact List.Perm.refl l
  · next h =>
    obtain ⟨hcb, hblen⟩ := bestChild_lt_length h
    exact (heapifyDown_perm cmp _ (bestChild cmp l c)).trans
      (swapL_perm l _ c hblen (lt_trans hcb hblen))
termination_by l.length - c
decreasing_by
  rename_i h
  have := bestChild_lt_length h
  simp only [length_swapL]
  omega

/-- Correctness of `#heapifyDown(c)`: if the heap property holds at every
parent index `≥ k` other than `c`, and the parent of `c` (when it is itself an
index `≥ k`) outranks the children of `c`, then after sifting down the heap
property holds at every parent index `≥ k`. -/
theorem heapifyDown_spec {cmp : α → α → Int} (hc : LawfulCmp cmp)
    (l : List α) (k c : Nat) (hkc : k ≤ c)
    (h1 : ∀ i j, j < l.length → (j = 2 * i + 1 ∨ j = 2 * i + 2) → k ≤ i →
      i ≠ c → 0 ≤ cmp (nth l i) (nth l j))
    (h2 : ∀ j, (j = 2 * c + 1 ∨ j = 2 * c + 2) → j < l.length →
      ∀ p, (c = 2 * p + 1 ∨ c = 2 * p + 2) → k ≤ p →
        0 ≤ cmp (nth l p) (nth l j)) :
    heapPropFrom cmp (heapifyDown cmp l c) k := by
  rw [heapifyDown]
  split
  · next hb =>
    intro i j hj hch hki
    by_cases hic : i = c
    · subst hic
      rcases hch with hch | hch
      · subst hch
        exact (bestChild_eq_self hb).1 hj
      · subst hch
        exact (bestChild_eq_self hb).2 hj
    · exact h1 i j hj hch hki hic
  · next hb =>
    obtain ⟨hbchild, hblen, hbc, hbdom⟩ := bestChild_ne_self hc hb
    obtain ⟨hcb, _⟩ := bestChild_lt_length hb
    have hclen : c < l.length := lt_trans hcb hblen
    have hbc_ne : bestChild cmp l c ≠ c := hb
    have hswb : nth (swapL l (bestChild cmp l c) c) (bestChild cmp l c) =
        nth l c := nth_swapL_fst hblen hbc_ne
    have hswc : nth (swapL l (bestChild cmp l c) c) c =
        nth l (bestChild cmp l c) := nth_swapL_snd hclen
    refine heapifyDown_spec hc (swapL l (bestChild cmp l c) c) k
      (bestChild cmp l c) (le_trans hkc (le_of_lt hcb)) ?_ ?_
    · -- heap property at parents ≥ k other than the new position
      intro x j hj hch hkx hxb
      rw [length_swapL] at hj
      by_cases hxc : x = c
      · rw [hxc] at hch ⊢
        by_cases hjb : j = bestChild cmp l c
        · rw [hjb, hswb, hswc]
          exact hbc
        · have hjc : j ≠ c := by rcases hch with h | h <;> omega
          rw [hswc, nth_swapL_other hjb hjc]
          exact hbdom j hch hj
      · by_cases hjb : j = bestChild cmp l c
        · rw [hjb] at hch
          exact absurd (child_parent_unique hch hbchild) hxc
        · by_cases hjc : j = c
          · rw [hjc] at hch ⊢
            rw [nth_swapL_other hxb hxc, hswc]
            exact h2 (bestChild cmp l c) hbchild hblen x hch hkx
          · rw [nth_swapL_other hxb hxc, nth_swapL_other hjb hjc]
            exact h1 x j hj hch hkx hxc
    · -- the parent of the new position outranks its children
      intro j hch hj p hpch hkp
      rw [length_swapL] at hj
      have hpc : p = c := child_parent_unique hpch hbchild
      rw [hpc, hswc]
      have hjgt : bestChild cmp l c < j := by rcases hch with h | h <;> omega
      have hjb : j ≠ bestChild cmp l c := by omega
      have hjc : j ≠ c := by omega
      rw [nth_swapL_other hjb hjc]
      exact h1 (bestChild cmp l c) j hj hch (le_trans hkc (le_of_lt hcb)) hbc_ne
termination_by l.length - c
decreasing_by
  simp only [length_swapL]
  omega

/-- Correctness of `#heapifyUp(c)`: if the heap property holds at every
parent-child pair whose child is not `c`, and the parent of `c` outranks the
children of `c`, then after sifting up the heap property holds everywhere. -/
theorem heapifyUp_spec {cmp : α → α → Int} (hc : LawfulCmp cmp)
    (l : List α) (c : Nat) (hclen : c < l.length)
    (h1 : ∀ i j, j < l.length → (j = 2 * i + 1 ∨ j = 2 * i + 2) → j ≠ c →
      0 ≤ cmp (nth l i) (nth l j))
    (h2 : ∀ j, (j = 2 * c + 1 ∨ j = 2 * c + 2) → j < l.length →
      ∀ p, (c = 2 * p + 1 ∨ c = 2 * p + 2) → 0 ≤ cmp (nth l p) (nth l j)) :
    heapProp cmp (heapifyUp cmp l c) := by
  rw [heapifyUp]
  by_cases hc0 : 0 < c
  · rw [if_pos hc0]
    by_cases hstop : cmp (nth l c) (nth l ((c + 1) / 2 - 1)) ≤ 0
    · rw [if_pos hstop]
      intro i j hj hch
      by_cases hjc : j = c
      · rw [hjc] at hch ⊢
        have hip : i = (c + 1) / 2 - 1 := by omega
        rw [hip]
        exact hc.flip_nonneg _ _ hstop
      · exact h1 i j hj hch hjc
    · rw [if_neg hstop]
      have hlt : 0 < cmp (nth l c) (nth l ((c + 1) / 2 - 1)) := by omega
      have hp : (c + 1) / 2 - 1 < c := by omega
      have hpch : c = 2 * ((c + 1) / 2 - 1) + 1 ∨ c = 2 * ((c + 1) / 2 - 1) + 2 := by
        omega
      have hplen : (c + 1) / 2 - 1 < l.length := lt_trans hp hclen
      have hpc_ne : (c + 1) / 2 - 1 ≠ c := Nat.ne_of_lt hp
      have hswp : nth (swapL l ((c + 1) / 2 - 1) c) ((c + 1) / 2 - 1) = nth l c :=
        nth_swapL_fst hplen hpc_ne
      have hswc : nth (swapL l ((c + 1) / 2 - 1) c) c = nth l ((c + 1) / 2 - 1) :=
        nth_swapL_snd hclen
      refine heapifyUp_spec hc (swapL l ((c + 1) / 2 - 1) c) ((c + 1) / 2 - 1)
        (by rw [length_swapL]; exact hplen) ?_ ?_
      · -- pairs whose child is not the new position
        intro i j hj hch hjp
        rw [length_swapL] at hj
        by_cases hjc : j = c
        · -- the moved-up element versus its old parent slot
          rw [hjc] at hch ⊢
          have hip : i = (c + 1) / 2 - 1 := child_parent_unique hch hpch
          rw [hip, hswp, hswc]
          exact le_of_lt hlt
        · by_cases hip : i = (c + 1) / 2 - 1
          · -- sibling of the old position under the moved-up element
            rw [hip, hswp]
            have hjne : j ≠ (c + 1) / 2 - 1 := by
              rw [hip] at hch
              rcases hch with h | h <;> omega
            rw [nth_swapL_other hjne hjc]
            have hps : 0 ≤ cmp (nth l ((c + 1) / 2 - 1)) (nth l j) := by
              rw [hip] at hch
              exact h1 _ j hj hch hjc
            exact hc.trans_nonneg _ _ _ (le_of_lt hlt) hps
          · by_cases hic : i = c
            · -- children of the old position under the old parent value
              rw [hic] at hch ⊢
              have hjp' : j ≠ (c + 1) / 2 - 1 := by
                rcases hch with h | h <;> omega
              rw [hswc, nth_swapL_other hjp' hjc]
              exact h2 j hch hj _ hpch
            · rw [nth_swapL_other hip hic, nth_swapL_other hjp hjc]
              exact h1 i j hj hch hjc
      · -- the grandparent outranks the children of the new position
        intro j hch hj q hqch
        rw [length_swapL] at hj
        have hqp : q < (c + 1) / 2 - 1 := by rcases hqch with h | h <;> omega
        have hqnep : q ≠ (c + 1) / 2 - 1 := Nat.ne_of_lt hqp
        have hqnec : q ≠ c := by omega
        rw [nth_swapL_other hqnep hqnec]
        by_cases hjc : j = c
        · rw [hjc, hswc]
          exact h1 q _ hplen hqch hpc_ne
        · have hjnep : j ≠ (c + 1) / 2 - 1 := by
            rcases hch with h | h <;> omega
          rw [nth_swapL_other hjnep hjc]
          have hqp' : 0 ≤ cmp (nth l q) (nth l ((c + 1) / 2 - 1)) :=
            h1 q _ hplen hqch hpc_ne
          have hpj : 0 ≤ cmp (nth l ((c + 1) / 2 - 1)) (nth l j) :=
            h1 _ j hj hch hjc
          exact hc.trans_nonneg _ _ _ hqp' hpj
  · rw [if_neg hc0]
    intro i j hj hch
    have hjc : j ≠ c := by rcases hch with h | h <;> omega
    exact h1 i j hj hch hjc
termination_by c
decreasing_by omega

/-- `push` preserves the heap property. -/
theorem pushHeap_heapProp {cmp : α → α → Int} (hc : LawfulCmp cmp)
    {l : List α} (hl : heapProp cmp l) (x : α) :
    heapProp cmp (pushHeap cmp l x) := by
  unfold pushHeap
  refine heapifyUp_spec hc (l ++ [x]) l.length (by simp) ?_ ?_
  · intro i j hj hch hjc
    simp only [List.length_append, List.length_singleton] at hj
    have hjlen : j < l.length := by omega
    have hilen : i < l.length := by
      have : i < j := by rcases hch with h | h <;> omega
      omega
    rw [nth_append_left hilen, nth_append_left hjlen]
    exact hl i j hjlen hch
  · intro j hch hj
    simp only [List.length_append, List.length_singleton] at hj
    omega

theorem nth_eq_getElem {l : List α} {i : Nat} (h : i < l.length) :
    nth l i = l[i] := by
  rw [nth, List.getD_eq_getElem?_getD, List.getElem?_eq_getElem h]
  rfl

theorem nth_in_bounds {l : List α} {i : Nat} (h : i < l.length) :
    nth l i ∈ l := by
  rw [nth_eq_getElem h]
  exact List.getElem_mem h

theorem nth_dropLast {l : List α} {i : Nat} (h : i < l.length - 1) :
    nth l.dropLast i = nth l i := by
  rw [nth, nth, List.getD_eq_getElem?_getD, List.getD_eq_getElem?_getD,
    List.getElem?_dropLast, if_pos h]

/-- In a heap the root outranks every element of the storage. -/
theorem heapProp_root_dominates {cmp : α → α → Int} (hc : LawfulCmp cmp)
    {l : List α} (hl : heapProp cmp l) :
    ∀ j, j < l.length → 0 ≤ cmp (nth l 0) (nth l j) := by
  intro j
  induction j using Nat.strong_induction_on with
  | _ j ih =>
    intro hj
    match j with
    | 0 => exact hc.self_nonneg _
    | j + 1 =>
      have hch : j + 1 = 2 * (j / 2) + 1 ∨ j + 1 = 2 * (j / 2) + 2 := by omega
      have hpar : 0 ≤ cmp (nth l (j / 2)) (nth l (j + 1)) := hl _ _ hj hch
      have hroot : 0 ≤ cmp (nth l 0) (nth l (j / 2)) :=
        ih (j / 2) (by omega) (by omega)
      exact hc.trans_nonneg _ _ _ hroot hpar

theorem heapProp_root_dominates_mem {cmp : α → α → Int} (hc : LawfulCmp cmp)
    {l : List α} (hl : heapProp cmp l) {y : α} (hy : y ∈ l) :
    0 ≤ cmp (nth l 0) y := by
  obtain ⟨i, hi, rfl⟩ := List.getElem_of_mem hy
  rw [← nth_eq_getElem hi]
  exact heapProp_root_dominates hc hl i hi

theorem popHeap_none {cmp : α → α → Int} {l : List α} :
    popHeap cmp l = none ↔ l = [] := by
  cases l with
  | nil => simp [popHeap]
  | cons y ys =>
    cases ys with
    | nil => simp [popHeap]
    | cons z zs => simp [popHeap]

theorem popHeap_singleton (cmp : α → α → Int) (y : α) :
    popHeap cmp [y] = some (y, []) := rfl

theorem popHeap_cons_cons (cmp : α → α → Int) (y z : α) (zs : List α) :
    popHeap cmp (y :: z :: zs) = some (nth (y :: z :: zs) 0,
      heapifyDown cmp (((y :: z :: zs).dropLast).set 0
        (nth (y :: z :: zs) ((y :: z :: zs).length - 1))) 0) := rfl

theorem popHeap_some_root {cmp : α → α → Int} {l l' : List α} {x : α}
    (h : popHeap cmp l = some (x, l')) : x = nth l 0 := by
  match l with
  | [] => simp [popHeap] at h
  | [y] =>
    rw [popHeap_singleton] at h
    simp only [Option.some.injEq, Prod.mk.injEq] at h
    rw [← h.1]
    rfl
  | y :: z :: zs =>
    rw [popHeap_cons_cons] at h
    simp only [Option.some.injEq, Prod.mk.injEq] at h
    exact h.1.symm

theorem popHeap_some_len {cmp : α → α → Int} {l l' : List α} {x : α}
    (h : popHeap cmp l = some (x, l')) : l'.length + 1 = l.length := by
  match l with
  | [] => simp [popHeap] at h
  | [y] =>
    rw [popHeap_singleton] at h
    simp only [Option.some.injEq, Prod.mk.injEq] at h
    rw [← h.2]
    rfl
  | y :: z :: zs =>
    rw [popHeap_cons_cons] at h
    simp only [Option.some.injEq, Prod.mk.injEq] at h
    rw [← h.2, length_heapifyDown]
    simp

theorem popHeap_some_perm {cmp : α → α → Int} {l l' : List α} {x : α}
    (h : popHeap cmp l = some (x, l')) : (x :: l').Perm l := by
  match l with
  | [] => simp [popHeap] at h
  | [y] =>
    rw [popHeap_singleton] at h
    simp only [Option.some.injEq, Prod.mk.injEq] at h
    rw [← h.1, ← h.2]
  | y :: z :: zs =>
    rw [popHeap_cons_cons] at h
    simp only [Option.some.injEq, Prod.mk.injEq] at h
    have hzzs : (z :: zs) ≠ [] := by simp
    have hlen : (y :: z :: zs).length - 1 < (y :: z :: zs).length := by simp
    have hlast : nth (y :: z :: zs) ((y :: z :: zs).length - 1)
        = (y :: z :: zs).getLast (by simp) := by
      rw [List.getLast_eq_getElem, nth_eq_getElem hlen]
    have hlast2 : (y :: z :: zs).getLast (by simp) = (z :: zs).getLast hzzs := by
      simp [List.getLast]
    have hperm1 : l'.Perm (((y :: z :: zs).dropLast).set 0
        (nth (y :: z :: zs) ((y :: z :: zs).length - 1))) := by
      rw [← h.2]
      exact heapifyDown_perm cmp _ 0
    have hset : ((y :: z :: zs).dropLast).set 0
        (nth (y :: z :: zs) ((y :: z :: zs).length - 1))
        = nth (y :: z :: zs) ((y :: z :: zs).length - 1) :: (z :: zs).dropLast := by
      rfl
    have hx : x = y := by
      rw [← h.1]
      rfl
    have hrestore : (z :: zs).dropLast ++ [(z :: zs).getLast hzzs] = z :: zs :=
      List.dropLast_append_getLast hzzs
    have htailperm : ((z :: zs).getLast hzzs :: (z :: zs).dropLast).Perm (z :: zs) := by
      have hp := (List.perm_append_singleton ((z :: zs).getLast hzzs)
        ((z :: zs).dropLast)).symm
      rw [hrestore] at hp
      exact hp
    refine List.Perm.trans (List.Perm.cons x hperm1) ?_
    rw [hset, hlast, hlast2, hx]
    exact List.Perm.cons y htailperm

theorem heapProp_short {cmp : α → α → Int} {l : List α} (h : l.length ≤ 1) :
    heapProp cmp l := by
  intro i j hj hch
  exfalso
  rcases hch with hc1 | hc1 <;> omega

/-- `pop` preserves the heap property. -/
theorem popHeap_some_heapProp {cmp : α → α → Int} (hc : LawfulCmp cmp)
    {l l' : List α} {x : α} (hl : heapProp cmp l)
    (h : popHeap cmp l = some (x, l')) : heapProp cmp l' := by
  match l with
  | [] => simp [popHeap] at h
  | [y] =>
    rw [popHeap_singleton] at h
    simp only [Option.some.injEq, Prod.mk.injEq] at h
    rw [← h.2]
    exact heapProp_short (by simp)
  | y :: z :: zs =>
    rw [popHeap_cons_cons] at h
    simp only [Option.some.injEq, Prod.mk.injEq] at h
    rw [← h.2]
    rw [← heapPropFrom_zero]
    refine heapifyDown_spec hc _ 0 0 (Nat.le_refl 0) ?_ ?_
    · intro i j hj hch _ hi0
      have hlena : (((y :: z :: zs).dropLast).set 0
          (nth (y :: z :: zs) ((y :: z :: zs).length - 1))).length
          = (y :: z :: zs).length - 1 := by simp
      rw [hlena] at hj
      have hij : i < j := by rcases hch with hc1 | hc1 <;> omega
      have hj0 : j ≠ 0 := by omega
      rw [nth_set_ne (Ne.symm hi0), nth_set_ne (Ne.symm hj0),
        nth_dropLast (by omega), nth_dropLast hj]
      exact hl i j (by omega) hch
    · intro j hch hj p hpch hkp
      exfalso
      rcases hpch with hc1 | hc1 <;> omega

theorem foldl_heapifyDown_perm (cmp : α → α → Int) :
    ∀ (idxs : List Nat) (a : List α),
      (idxs.foldl (heapifyDown cmp) a).Perm a := by
  intro idxs
  induction idxs with
  | nil => intro a ; exact List.Perm.refl a
  | cons i rest ih =>
    intro a
    exact (ih (heapifyDown cmp a i)).trans (heapifyDown_perm cmp a i)

/-- Invariant of the constructor's bottom-up heapify loop: running
`#heapifyDown(i)` for `i = m-1, …, 0` turns "heap from `m`" into "heap". -/
theorem heapify_loop {cmp : α → α → Int} (hc : LawfulCmp cmp) :
    ∀ (m : Nat) (a : List α), heapPropFrom cmp a m →
      heapPropFrom cmp (((List.range m).reverse).foldl (heapifyDown cmp) a) 0 := by
  intro m
  induction m with
  | zero => intro a ha ; simpa using ha
  | succ m ih =>
    intro a ha
    have hrange : (List.range (m + 1)).reverse = m :: (List.range m).reverse := by
      rw [List.range_succ, List.reverse_append]
      rfl
    rw [hrange, List.foldl_cons]
    refine ih (heapifyDown cmp a m) ?_
    refine heapifyDown_spec hc a m m (Nat.le_refl m) ?_ ?_
    · intro i j hj hch hmi him
      exact ha i j hj hch (by omega)
    · intro j hch hj p hpch hmp
      exfalso
      rcases hpch with hc1 | hc1 <;> omega

theorem buildHeap_heapProp {cmp : α → α → Int} (hc : LawfulCmp cmp)
    (l : List α) : heapProp cmp (buildHeap cmp l) := by
  unfold buildHeap
  split
  · rw [← heapPropFrom_zero]
    refine heapify_loop hc (l.length / 2) l ?_
    intro i j hj hch hki
    exfalso
    rcases hch with hc1 | hc1 <;> omega
  · next hlen => exact heapProp_short (by omega)

theorem buildHeap_perm (cmp : α → α → Int) (l : List α) :
    (buildHeap cmp l).Perm l := by
  unfold buildHeap
  split
  · exact foldl_heapifyDown_perm cmp _ l
  · exact List.Perm.refl l

/-- Draining the heap by calling `pop()` at most `fuel` times, collecting the
returned roots until `pop` reports the heap empty. -/
def popAllFuel (cmp : α → α → Int) : Nat → List α → List α
  | 0, _ => []
  | fuel + 1, l =>
    match popHeap cmp l with
    | none => []
    | some (x, l') => x :: popAllFuel cmp fuel l'

/-- Repeatedly calling `pop()` until the heap is empty (the storage length
bounds the number of successful pops). -/
def popAll (cmp : α → α → Int) (l : List α) : List α :=
  popAllFuel cmp l.length l

theorem popAllFuel_spec {cmp : α → α → Int} (hc : LawfulCmp cmp) :
    ∀ (fuel : Nat) (l : List α), l.length ≤ fuel → heapProp cmp l →
      (popAllFuel cmp fuel l).Perm l ∧
      List.Chain' (fun a b => 0 ≤ cmp a b) (popAllFuel cmp fuel l) := by
  intro fuel
  induction fuel with
  | zero =>
    intro l hlen _
    have : l = [] := List.length_eq_zero.mp (Nat.le_zero.mp hlen)
    rw [this]
    exact ⟨List.Perm.refl _, List.chain'_nil⟩
  | succ fuel ih =>
    intro l hlen hl
    rcases hpop : popHeap cmp l with _ | ⟨x, l'⟩
    · have hnil : l = [] := popHeap_none.mp hpop
      rw [hnil]
      simp [popAllFuel, popHeap]
    · have heq : popAllFuel cmp (fuel + 1) l = x :: popAllFuel cmp fuel l' := by
        simp only [popAllFuel, hpop]
      have hperm : (x :: l').Perm l := popHeap_some_perm hpop
      have hlen' : l'.length ≤ fuel := by
        have := popHeap_some_len hpop
        omega
      have hl' : heapProp cmp l' := popHeap_some_heapProp hc hl hpop
      obtain ⟨ihp, ihc⟩ := ih l' hlen' hl'
      rw [heq]
      constructor
      · exact (ihp.cons x).trans hperm
      · rw [List.chain'_cons']
        refine ⟨?_, ihc⟩
        intro y hy
        have hy1 : y ∈ popAllFuel cmp fuel l' :=
          List.mem_of_mem_head? hy
        have hy2 : y ∈ l' := ihp.mem_iff.mp hy1
        have hy3 : y ∈ l := hperm.mem_iff.mp (List.mem_cons_of_mem x hy2)
        rw [popHeap_some_root hpop]
        exact heapProp_root_dominates_mem hc hl hy3

/-- The heap property stated over each child and its parent `(j-1)/2`;
equivalent to `heapProp` and decidable for concrete storage. -/
theorem heapProp_iff_parents {cmp : α → α → Int} {l : List α} :
    heapProp cmp l ↔ ∀ j, j < l.length → 0 < j →
      0 ≤ cmp (nth l ((j - 1) / 2)) (nth l j) := by
  constructor
  · intro hp j hj hj0
    exact hp ((j - 1) / 2) j hj (by omega)
  · intro hpar i j hj hch
    have hi : i = (j - 1) / 2 := by omega
    rw [hi]
    exact hpar j hj (by omega)

end HeapProofs

/-- The default numeric comparator of the heap constructor,
`(a, b) => a - b`, on (integer) numbers. -/
def intCmp (a b : Int) : Int := a - b

theorem lawful_intCmp : LawfulCmp intCmp := by
  constructor
  · intro a b h
    simp only [intCmp] at *
    omega
  · intro a b h
    simp only [intCmp] at *
    omega
  · intro a b c h1 h2
    simp only [intCmp] at *
    omega

section HeapClaims

variable {α : Type} [Inhabited α]

/-- C1: for every heap (any storage already satisfying the heap property,
under any lawful comparator) and every sequence of `push` operations, after
each push the heap property holds over the full storage.  Every intermediate
state of a push sequence is itself `List.foldl (pushHeap cmp) init pushes`
for the corresponding prefix, so the universally quantified `pushes` covers
the state after each push. -/
theorem heap_push_sequence_preserves_heapProp {cmp : α → α → Int}
    (hc : LawfulCmp cmp) (init : List α) (hinit : heapProp cmp init)
    (pushes : List α) :
    heapProp cmp (List.foldl (pushHeap cmp) init pushes) := by
  induction pushes generalizing init with
  | nil => exact hinit
  | cons x rest ih =>
    rw [List.foldl_cons]
    exact ih (pushHeap cmp init x) (pushHeap_heapProp hc hinit x)

theorem heap_push_sequence_preserves_heapProp_witness :
    heapProp intCmp (List.foldl (pushHeap intCmp) ([] : List Int) [3, 1, 4, 1, 5]) :=
  heap_push_sequence_preserves_heapProp lawful_intCmp []
    (heapProp_short (by decide)) [3, 1, 4, 1, 5]

/-- C2: popping a heap repeatedly until empty yields exactly the stored
values (a permutation of the storage), in non-increasing priority order:
`compare r_k r_(k+1) ≥ 0` for each pair of consecutively popped values. -/
theorem heap_popAll_nonincreasing {cmp : α → α → Int} (hc : LawfulCmp cmp)
    (l : List α) (hl : heapProp cmp l) :
    (popAll cmp l).Perm l ∧
    List.Chain' (fun a b => 0 ≤ cmp a b) (popAll cmp l) :=
  popAllFuel_spec hc l.length l (Nat.le_refl l.length) hl

theorem heap_popAll_nonincreasing_witness :
    (popAll intCmp ([5, 3, 4, 1] : List Int)).Perm [5, 3, 4, 1] ∧
    List.Chain' (fun a b => 0 ≤ intCmp a b) (popAll intCmp [5, 3, 4, 1]) :=
  heap_popAll_nonincreasing lawful_intCmp [5, 3, 4, 1]
    (heapProp_iff_parents.mpr (by decide))

/-- C6: constructing a heap (or the identically-implemented priority queue)
with an initial sequence — sift-down of every index from `floor(n/2)-1` down
to `0` over the sequence taken as the initial dense array, which is what
`buildHeap` is — produces a storage that is a permutation of the input and
satisfies the heap property. -/
theorem heap_construction_perm_heapProp {cmp : α → α → Int}
    (hc : LawfulCmp cmp) (initValues : List α) :
    (buildHeap cmp initValues).Perm initValues ∧
    heapProp cmp (buildHeap cmp initValues) :=
  ⟨buildHeap_perm cmp initValues, buildHeap_heapProp hc initValues⟩

theorem heap_construction_perm_heapProp_witness :
    (buildHeap intCmp ([3, 1, 4, 1, 5] : List Int)).Perm [3, 1, 4, 1, 5] ∧
    heapProp intCmp (buildHeap intCmp [3, 1, 4, 1, 5]) :=
  heap_construction_perm_heapProp lawful_intCmp [3, 1, 4, 1, 5]

end HeapClaims

/-! ## Doubly-linked list (`src/structures/linked-list.ts`) and the policy
wrappers Stack (`stack.ts`), Queue (`queue.ts`) and Deque (the Deque class of
`src/unnamed/part_015`).

The doubly-linked chain is represented by its value sequence head→tail:
`#head` is `values.head?`, `#tail` is `values.getLast?`, `#length` is
`values.length` (the chain invariants of §3 make these three fields and the
chain interdeterminable).  A method that can throw returns
`state-as-mutated-so-far × Except JsError result`: in the sources every
validation precedes every pointer write, which the definitions mirror by
returning the original state alongside the error.  Factories are pure
functions `φ → α` (`φ` the argument-tuple type), absent factories are
`none`. -/

/-- A JavaScript argument that is expected to be a function: either an
invocable value or a non-invocable one (`typeof x !== 'function'`). -/
inductive FnArg (β : Type) where
  | fn : β → FnArg β
  | invalid : FnArg β

/-- The two runtime shapes accepted by `assign` plus the rejected rest:
`assign(values, start?, end?)`, `assign(count, value)` (exactly two
arguments, first a number), or anything else. -/
inductive AssignArgs (α : Type) where
  | slice : List α → Option Int → Option Int → AssignArgs α
  | fill : Int → α → AssignArgs α
  | invalid : AssignArgs α

structure LinkedList (α : Type) (φ : Type) where
  values : List α
  factory : Option (φ → α)

namespace LinkedList

variable {α : Type} [Inhabited α] {φ : Type}

/-- `pushFront(value)`. -/
def pushFront (l : LinkedList α φ) (value : α) : LinkedList α φ :=
  { l with values := value :: l.values }

/-- `pushBack(value)`. -/
def pushBack (l : LinkedList α φ) (value : α) : LinkedList α φ :=
  { l with values := l.values ++ [value] }

/-- `popFront()`: throws on empty, else removes and returns the head value
(single-node and two-or-more-node branches both remove the head). -/
def popFront (l : LinkedList α φ) : LinkedList α φ × Except JsError α :=
  match l.values with
  | [] => (l, .error (.error "popFront: Cannot pop from an empty linked list"))
  | v :: rest => ({ l with values := rest }, .ok v)

/-- `popBack()`: throws on empty, else removes and returns the tail value. -/
def popBack (l : LinkedList α φ) : LinkedList α φ × Except JsError α :=
  if h : l.values.length = 0 then
    (l, .error (.error "popBack: Cannot pop from an empty linked list"))
  else
    ({ l with values := l.values.dropLast },
     .ok (l.values.getLast (List.length_pos.mp (Nat.pos_of_ne_zero h))))

/-- `insertAt(val, index)`: validates `0 ≤ index ≤ length` before touching
the chain; index 0 prepends, index `length` appends, otherwise the walk
splices the node in before the node at `index`. -/
def insertAt (l : LinkedList α φ) (val : α) (index : Int) :
    LinkedList α φ × Except JsError Unit :=
  if index < 0 ∨ index > l.values.length then
    (l, .error (.rangeError "Invalid index to insert"))
  else if index = 0 then (pushFront l val, .ok ())
  else if index = l.values.length then (pushBack l val, .ok ())
  else
    ({ l with values :=
        l.values.take index.toNat ++ val :: l.values.drop index.toNat }, .ok ())

/-- `eraseAt(index)`: empty check, then range check, then boundary
delegation to `popFront`/`popBack`, else walk and unlink the node. -/
def eraseAt (l : LinkedList α φ) (index : Int) :
    LinkedList α φ × Except JsError α :=
  if l.values.length = 0 then
    (l, .error (.error "eraseAt: Cannot erase from an empty linked list"))
  else if index < 0 ∨ index ≥ l.values.length then
    (l, .error (.rangeError "Invalid index to erase"))
  else if index = 0 then popFront l
  else if index = l.values.length - 1 then popBack l
  else
    ({ l with values :=
        l.values.take index.toNat ++ l.values.drop (index.toNat + 1) },
     .ok (nth l.values index.toNat))

/-- `emplaceFront(...args)`: requires a configured factory, then delegates
to `pushFront`. -/
def emplaceFront (l : LinkedList α φ) (args : φ) :
    LinkedList α φ × Except JsError Unit :=
  match l.factory with
  | none => (l, .error (.error "emplaceFront: Factory function is not defined"))
  | some f => (pushFront l (f args), .ok ())

/-- `emplaceBack(...args)`. -/
def emplaceBack (l : LinkedList α φ) (args : φ) :
    LinkedList α φ × Except JsError Unit :=
  match l.factory with
  | none => (l, .error (.error "emplaceBack: Factory function is not defined"))
  | some f => (pushBack l (f args), .ok ())

/-- `emplaceAt(index, ...args)`. -/
def emplaceAt (l : LinkedList α φ) (index : Int) (args : φ) :
    LinkedList α φ × Except JsError Unit :=
  match l.factory with
  | none => (l, .error (.error "emplaceAt: Factory function is not defined"))
  | some f => insertAt l (f args) index

/-- `assign(...)`: runtime dispatch on the argument shape; both live
overloads validate their bounds, then clear and repopulate. -/
def assign (l : LinkedList α φ) : AssignArgs α →
    LinkedList α φ × Except JsError Unit
  | .slice vs s e =>
    let start := s.getD 0
    let stop := e.getD vs.length
    if start < 0 ∨ stop > vs.length ∨ start > stop then
      (l, .error (.rangeError "Invalid array slice range"))
    else
      ({ l with values := (vs.drop start.toNat).take (stop - start).toNat },
       .ok ())
  | .fill count value =>
    if count < 0 then
      (l, .error (.rangeError "Count must be a non-negative integer"))
    else ({ l with values := List.replicate count.toNat value }, .ok ())
  | .invalid => (l, .error (.typeError "Invalid arguments passed to assign()"))

/-- `remove(val, compareFn)`: returns 0 on an empty list before validating
`compareFn`; then rejects a non-invocable `compareFn`; else unlinks every
matching node and returns how many were removed. -/
def remove (l : LinkedList α φ) (val : α) (cf : FnArg (α → α → Bool)) :
    LinkedList α φ × Except JsError Nat :=
  if l.values.length = 0 then (l, .ok 0)
  else match cf with
    | .invalid => (l, .error (.typeError "compareFn must be a function"))
    | .fn f =>
      ({ l with values := l.values.filter (fun x => !(f x val)) },
       .ok (l.values.countP (fun x => f x val)))

/-- The `front` setter: throws on empty, else overwrites the head node's
value in place. -/
def setFront (l : LinkedList α φ) (val : α) :
    LinkedList α φ × Except JsError Unit :=
  if l.values.length = 0 then
    (l, .error (.error "front: cannot set front element of an empty linked list"))
  else ({ l with values := l.values.set 0 val }, .ok ())

/-- The `back` setter: throws on empty, else overwrites the tail node's
value in place. -/
def setBack (l : LinkedList α φ) (val : α) :
    LinkedList α φ × Except JsError Unit :=
  if l.values.length = 0 then
    (l, .error (.error "back: cannot set back element of an empty linked list"))
  else ({ l with values := l.values.set (l.values.length - 1) val }, .ok ())

/-- Static `swap(list1, list2)` on two (distinct) lists: exchanges the
`#head`/`#tail`/`#length` triples — the chains — and nothing else; the
factories stay with their lists. -/
def swap (list1 list2 : LinkedList α φ) :
    LinkedList α φ × LinkedList α φ :=
  ({ list1 with values := list2.values }, { list2 with values := list1.values })

/-- The value sequence produced by `merge`'s relinking loop: while both
chains are nonempty, a source head that compares strictly smaller than the
current target node is unlinked and inserted before it (source advances),
otherwise the target cursor advances; the remaining source chain is appended
at the end. -/
def mergeLists (cmp : α → α → Int) : List α → List α → List α
  | ts, [] => ts
  | [], s :: ss => s :: ss
  | t :: ts, s :: ss =>
    if cmp s t < 0 then s :: mergeLists cmp (t :: ts) ss
    else t :: mergeLists cmp ts (s :: ss)
termination_by ts ss => ts.length + ss.length

/-- Static `merge(target, source, compareFn)` for two distinct list
instances and an invocable `compareFn` (the `instanceof`, `typeof` and
self-merge guards pass): target receives the merged chain, source is left
empty. -/
def merge (cmp : α → α → Int) (target source : LinkedList α φ) :
    LinkedList α φ × LinkedList α φ :=
  ({ target with values := mergeLists cmp target.values source.values },
   { source with values := [] })

end LinkedList

/-- `Stack` (`src/structures/stack.ts`): values bottom→top, `#tail` is the
top. -/
structure Stack (α : Type) (φ : Type) where
  values : List α
  factory : Option (φ → α)

namespace Stack

variable {α : Type} {φ : Type}

/-- `push(value)`: appends at the tail (top). -/
def push (s : Stack α φ) (value : α) : Stack α φ :=
  { s with values := s.values ++ [value] }

/-- `pop()`: throws on empty, else removes and returns the top (tail)
value. -/
def pop (s : Stack α φ) : Stack α φ × Except JsError α :=
  if h : s.values.length = 0 then
    (s, .error (.error "Cannot perform pop operation on empty stack."))
  else
    ({ s with values := s.values.dropLast },
     .ok (s.values.getLast (List.length_pos.mp (Nat.pos_of_ne_zero h))))

/-- `peek()`: the throwing accessor for the top value. -/
def peek (s : Stack α φ) : Except JsError α :=
  if h : s.values.length = 0 then
    .error (.error "Cannot perform peek operation on empty stack.")
  else .ok (s.values.getLast (List.length_pos.mp (Nat.pos_of_ne_zero h)))

/-- The `top` getter: non-throwing, `undefined` when empty. -/
def top (s : Stack α φ) : Option α :=
  s.values.getLast?

/-- `emplace(...args)`: requires a configured factory, then pushes. -/
def emplace (s : Stack α φ) (args : φ) : Stack α φ × Except JsError Unit :=
  match s.factory with
  | none =>
    (s, .error (.typeError "Please provide a factory function to use emplace."))
  | some f => (push s (f args), .ok ())

end Stack

/-- `Queue` (`src/structures/queue.ts`): values front→back, push at the
back, pop at the front. -/
structure Queue (α : Type) (φ : Type) where
  values : List α
  factory : Option (φ → α)

namespace Queue

variable {α : Type} {φ : Type}

/-- `push(value)`: appends at the tail (back). -/
def push (q : Queue α φ) (value : α) : Queue α φ :=
  { q with values := q.values ++ [value] }

/-- `pop()`: throws on empty, else removes and returns the front (head)
value. -/
def pop (q : Queue α φ) : Queue α φ × Except JsError α :=
  match q.values with
  | [] => (q, .error (.error "Cannot perform pop operation on empty queue."))
  | v :: rest => ({ q with values := rest }, .ok v)

/-- `peek()`: the throwing accessor for the front value. -/
def peek (q : Queue α φ) : Except JsError α :=
  match q.values with
  | [] => .error (.error "Cannot perform peek operation on empty queue.")
  | v :: _ => .ok v

/-- The `front` getter: non-throwing, `undefined` when empty. -/
def front (q : Queue α φ) : Option α :=
  q.values.head?

/-- `emplace(...args)`: requires a configured factory, then pushes. -/
def emplace (q : Queue α φ) (args : φ) : Queue α φ × Except JsError Unit :=
  match q.factory with
  | none =>
    (q, .error (.typeError "Factory function is not defined to perform emplace."))
  | some f => (push q (f args), .ok ())

end Queue

/-- `Deque` (the Deque class in `src/unnamed/part_015`): values front→back. -/
structure Deque (α : Type) (φ : Type) where
  values : List α
  factory : Option (φ → α)

namespace Deque

variable {α : Type} {φ : Type}

/-- `pushFront(value)`. -/
def pushFront (d : Deque α φ) (value : α) : Deque α φ :=
  { d with values := value :: d.values }

/-- `pushBack(value)`. -/
def pushBack (d : Deque α φ) (value : α) : Deque α φ :=
  { d with values := d.values ++ [value] }

/-- `popFront()`: `if (this.isEmpty()) return` — on an empty deque it
returns `undefined` and throws nothing; else removes and returns the head
value. -/
def popFront (d : Deque α φ) : Deque α φ × Except JsError (Option α) :=
  match d.values with
  | [] => (d, .ok none)
  | v :: rest => ({ d with values := rest }, .ok (some v))

/-- `popBack()`: returns `undefined` on an empty deque, else removes and
returns the tail value. -/
def popBack (d : Deque α φ) : Deque α φ × Except JsError (Option α) :=
  if h : d.values.length = 0 then (d, .ok none)
  else
    ({ d with values := d.values.dropLast },
     .ok (some (d.values.getLast (List.length_pos.mp (Nat.pos_of_ne_zero h)))))

/-- `emplaceFront(...args)`: with a factory, builds the value and pushes
it; without one, falls back to `this.pushFront(args[0] as T)` — `castFirst`
is that `args[0] as T` cast of the argument tuple. -/
def emplaceFront (castFirst : φ → α) (d : Deque α φ) (args : φ) :
    Deque α φ × Except JsError Unit :=
  match d.factory with
  | some f => (pushFront d (f args), .ok ())
  | none => (pushFront d (castFirst args), .ok ())

/-- `emplaceBack(...args)`: same fallback shape as `emplaceFront`. -/
def emplaceBack (castFirst : φ → α) (d : Deque α φ) (args : φ) :
    Deque α φ × Except JsError Unit :=
  match d.factory with
  | some f => (pushBack d (f args), .ok ())
  | none => (pushBack d (castFirst args), .ok ())

/-- The `front` getter: non-throwing, `undefined` when empty. -/
def front (d : Deque α φ) : Option α :=
  d.values.head?

/-- The `front` setter: `if (this.isEmpty()) return` — a silent no-op on an
empty deque; else overwrites the head node's value. -/
def setFront (d : Deque α φ) (val : α) : Deque α φ × Except JsError Unit :=
  if d.values.length = 0 then (d, .ok ())
  else ({ d with values := d.values.set 0 val }, .ok ())

/-- The `back` setter: silent no-op on an empty deque; else overwrites the
tail node's value. -/
def setBack (d : Deque α φ) (val : α) : Deque α φ × Except JsError Unit :=
  if d.values.length = 0 then (d, .ok ())
  else ({ d with values := d.values.set (d.values.length - 1) val }, .ok ())

end Deque

/-- The `Heap` class with its optional `emplace` factory (`#nodes` plus
`#factory`; `#compareFn` is passed explicitly to the operations). -/
structure Heap (α : Type) (φ : Type) where
  nodes : List α
  factory : Option (φ → α)

namespace Heap

variable {α : Type} [Inhabited α] {φ : Type}

/-- `pop()`: throws on empty, else behaves as `popHeap`. -/
def pop (cmp : α → α → Int) (h : Heap α φ) : Heap α φ × Except JsError α :=
  match popHeap cmp h.nodes with
  | none => (h, .error (.error "Heap is empty, cannot pop element."))
  | some (x, rest) => ({ h with nodes := rest }, .ok x)

/-- `peek()`: `return this.#nodes[0]` — non-throwing, `undefined` when
empty. -/
def peek (h : Heap α φ) : Option α :=
  h.nodes.head?

/-- `emplace(...args)`: requires a configured factory, then pushes the
built value. -/
def emplace (cmp : α → α → Int) (h : Heap α φ) (args : φ) :
    Heap α φ × Except JsError Unit :=
  match h.factory with
  | none =>
    (h, .error (.error "Heap was not initialized with a factory function"))
  | some f => ({ h with nodes := pushHeap cmp h.nodes (f args) }, .ok ())

end Heap

section MergeProofs

variable {α : Type} [Inhabited α] {φ : Type}

/-- The relinking loop's value sequence is the standard two-way merge with
"take the target element unless the source head is strictly smaller". -/
theorem mergeLists_eq_merge (cmp : α → α → Int) :
    ∀ (ts ss : List α), LinkedList.mergeLists cmp ts ss
      = List.merge ts ss (fun t s => decide (0 ≤ cmp s t))
  | ts, [] => by
    rw [List.merge_right]
    cases ts <;> simp [LinkedList.mergeLists]
  | [], s :: ss => by
    rw [List.nil_merge]
    simp [LinkedList.mergeLists]
  | t :: ts, s :: ss => by
    rw [List.cons_merge_cons]
    simp only [LinkedList.mergeLists]
    by_cases hst : cmp s t < 0
    · rw [if_pos hst, if_neg (by simp ; omega),
        mergeLists_eq_merge cmp (t :: ts) ss]
    · rw [if_neg hst, if_pos (by simp ; omega),
        mergeLists_eq_merge cmp ts (s :: ss)]
termination_by ts ss => ts.length + ss.length

theorem mergeLists_length (cmp : α → α → Int) (ts ss : List α) :
    (LinkedList.mergeLists cmp ts ss).length = ts.length + ss.length := by
  rw [mergeLists_eq_merge, List.length_merge]

theorem mergeLists_perm (cmp : α → α → Int) (ts ss : List α) :
    (LinkedList.mergeLists cmp ts ss).Perm (ts ++ ss) := by
  rw [mergeLists_eq_merge]
  exact List.merge_perm_append _

/-- Merging two chains that are ascending under `cmp` (each consecutive
pair compares `≤ 0`) gives an ascending chain. -/
theorem mergeLists_sorted {cmp : α → α → Int} (hc : LawfulCmp cmp)
    {ts ss : List α}
    (ht : List.Chain' (fun a b => cmp a b ≤ 0) ts)
    (hs : List.Chain' (fun a b => cmp a b ≤ 0) ss) :
    List.Chain' (fun a b => cmp a b ≤ 0) (LinkedList.mergeLists cmp ts ss) := by
  have htransR : Transitive (fun a b => cmp a b ≤ 0) := by
    intro a b c hab hbc
    exact hc.flip_nonpos c a
      (hc.trans_nonneg c b a (hc.flip_nonneg b c hbc) (hc.flip_nonneg a b hab))
  have instR : IsTrans α (fun a b => cmp a b ≤ 0) := ⟨htransR⟩
  have hchainPW : ∀ (l : List α),
      List.Chain' (fun a b => cmp a b ≤ 0) l ↔
        List.Pairwise (fun a b => cmp a b ≤ 0) l := by
    intro l
    exact @List.chain'_iff_pairwise α _ instR l
  have hpt : List.Pairwise (fun a b => (decide (0 ≤ cmp b a)) = true) ts := by
    refine ((hchainPW ts).mp ht).imp ?_
    intro a b hab
    exact decide_eq_true (hc.flip_nonneg a b hab)
  have hps : List.Pairwise (fun a b => (decide (0 ≤ cmp b a)) = true) ss := by
    refine ((hchainPW ss).mp hs).imp ?_
    intro a b hab
    exact decide_eq_true (hc.flip_nonneg a b hab)
  have hmerged := @List.sorted_merge α (fun t s => decide (0 ≤ cmp s t))
    (fun a b c hab hbc => by
      simp only [decide_eq_true_eq] at *
      exact hc.trans_nonneg c b a hbc hab)
    (fun a b => by
      simp only [Bool.or_eq_true, decide_eq_true_eq]
      rcases le_or_lt 0 (cmp b a) with h | h
      · exact Or.inl h
      · exact Or.inr (hc.flip_nonneg b a (le_of_lt h)))
    ts ss hpt hps
  rw [hchainPW, mergeLists_eq_merge]
  refine hmerged.imp ?_
  intro a b hab
  simp only [decide_eq_true_eq] at hab
  exact hc.flip_nonpos b a hab

end MergeProofs

section ContainerClaims

variable {α : Type} [Inhabited α] {φ : Type}

/-- C3: merging two distinct ascending-sorted lists (per `compareFn`) leaves
the target holding the merged ascending-sorted sequence, of length the sum
of the two lengths (and a permutation of the two chains' values), and leaves
the source empty. -/
theorem linkedList_merge_spec {cmp : α → α → Int} (hc : LawfulCmp cmp)
    (target source : LinkedList α φ)
    (ht : List.Chain' (fun a b => cmp a b ≤ 0) target.values)
    (hs : List.Chain' (fun a b => cmp a b ≤ 0) source.values) :
    List.Chain' (fun a b => cmp a b ≤ 0)
      (LinkedList.merge cmp target source).1.values ∧
    (LinkedList.merge cmp target source).1.values.length
      = target.values.length + source.values.length ∧
    (LinkedList.merge cmp target source).1.values.Perm
      (target.values ++ source.values) ∧
    (LinkedList.merge cmp target source).2.values = [] ∧
    (LinkedList.merge cmp target source).2.values.length = 0 :=
  ⟨mergeLists_sorted hc ht hs,
   mergeLists_length cmp target.values source.values,
   mergeLists_perm cmp target.values source.values,
   rfl, rfl⟩

theorem linkedList_merge_spec_witness :
    List.Chain' (fun a b => intCmp a b ≤ 0)
      (LinkedList.merge intCmp
        (⟨[1, 3, 5], none⟩ : LinkedList Int Int) ⟨[2, 4, 6], none⟩).1.values ∧
    (LinkedList.merge intCmp
      (⟨[1, 3, 5], none⟩ : LinkedList Int Int) ⟨[2, 4, 6], none⟩).1.values.length
        = ([1, 3, 5] : List Int).length + ([2, 4, 6] : List Int).length ∧
    (LinkedList.merge intCmp
      (⟨[1, 3, 5], none⟩ : LinkedList Int Int) ⟨[2, 4, 6], none⟩).1.values.Perm
        ([1, 3, 5] ++ [2, 4, 6]) ∧
    (LinkedList.merge intCmp
      (⟨[1, 3, 5], none⟩ : LinkedList Int Int) ⟨[2, 4, 6], none⟩).2.values = [] ∧
    (LinkedList.merge intCmp
      (⟨[1, 3, 5], none⟩ : LinkedList Int Int) ⟨[2, 4, 6], none⟩).2.values.length
        = 0 :=
  linkedList_merge_spec lawful_intCmp ⟨[1, 3, 5], none⟩ ⟨[2, 4, 6], none⟩
    (by simp [List.chain'_cons, intCmp])
    (by simp [List.chain'_cons, intCmp])

/-- C4 counterexample: a Deque constructed without a factory does not fail
with a NoFactory error on `emplaceFront(5)` — it completes normally and
inserts the raw first argument `5`. -/
theorem deque_emplace_no_factory_counterexample :
    Deque.emplaceFront id (⟨[], none⟩ : Deque Int Int) 5
      = (⟨[5], none⟩, Except.ok ()) := rfl

/-- C4 (amended): for the list, stack, queue and heap, an emplace-style call
on a container constructed without a factory fails with the NoFactory error
and inserts nothing; the deque instead falls back to inserting the raw first
argument (`args[0] as T`) without raising. -/
theorem emplace_without_factory_spec :
    (∀ (vals : List α) (args : φ),
      LinkedList.emplaceFront ⟨vals, none⟩ args = (⟨vals, none⟩,
        .error (.error "emplaceFront: Factory function is not defined"))) ∧
    (∀ (vals : List α) (args : φ),
      LinkedList.emplaceBack ⟨vals, none⟩ args = (⟨vals, none⟩,
        .error (.error "emplaceBack: Factory function is not defined"))) ∧
    (∀ (vals : List α) (index : Int) (args : φ),
      LinkedList.emplaceAt ⟨vals, none⟩ index args = (⟨vals, none⟩,
        .error (.error "emplaceAt: Factory function is not defined"))) ∧
    (∀ (vals : List α) (args : φ),
      Stack.emplace ⟨vals, none⟩ args = (⟨vals, none⟩,
        .error (.typeError "Please provide a factory function to use emplace."))) ∧
    (∀ (vals : List α) (args : φ),
      Queue.emplace ⟨vals, none⟩ args = (⟨vals, none⟩,
        .error (.typeError "Factory function is not defined to perform emplace."))) ∧
    (∀ (cmp : α → α → Int) (nodes : List α) (args : φ),
      Heap.emplace cmp ⟨nodes, none⟩ args = (⟨nodes, none⟩,
        .error (.error "Heap was not initialized with a factory function"))) ∧
    (∀ (castFirst : φ → α) (vals : List α) (args : φ),
      Deque.emplaceFront castFirst ⟨vals, none⟩ args
        = (⟨castFirst args :: vals, none⟩, .ok ())) ∧
    (∀ (castFirst : φ → α) (vals : List α) (args : φ),
      Deque.emplaceBack castFirst ⟨vals, none⟩ args
        = (⟨vals ++ [castFirst args], none⟩, .ok ())) :=
  ⟨fun _ _ => rfl, fun _ _ => rfl, fun _ _ _ => rfl, fun _ _ => rfl,
   fun _ _ => rfl, fun _ _ _ => rfl, fun _ _ _ => rfl, fun _ _ _ => rfl⟩

/-- C5 counterexample: `popFront()` on an empty Deque raises nothing — it
completes normally and returns the absent sentinel (`undefined`). -/
theorem deque_popFront_empty_counterexample :
    Deque.popFront (⟨[], none⟩ : Deque Int Int)
      = (⟨[], none⟩, Except.ok none) := rfl

/-- C5 (amended): on an empty container, the list's `popFront`/`popBack`,
the stack's, queue's and heap's `pop`, and the stack's and queue's throwing
`peek` raise the EmptyContainer error; the non-throwing accessors (`top`,
`front`, the heap's `peek`) return the absent sentinel; the deque's
`popFront`/`popBack` also return the absent sentinel instead of raising. -/
theorem empty_container_removal_spec :
    (∀ (fac : Option (φ → α)),
      LinkedList.popFront (⟨[], fac⟩ : LinkedList α φ) = (⟨[], fac⟩,
        .error (.error "popFront: Cannot pop from an empty linked list"))) ∧
    (∀ (fac : Option (φ → α)),
      LinkedList.popBack (⟨[], fac⟩ : LinkedList α φ) = (⟨[], fac⟩,
        .error (.error "popBack: Cannot pop from an empty linked list"))) ∧
    (∀ (fac : Option (φ → α)),
      Stack.pop (⟨[], fac⟩ : Stack α φ) = (⟨[], fac⟩,
        .error (.error "Cannot perform pop operation on empty stack."))) ∧
    (∀ (fac : Option (φ → α)),
      Queue.pop (⟨[], fac⟩ : Queue α φ) = (⟨[], fac⟩,
        .error (.error "Cannot perform pop operation on empty queue."))) ∧
    (∀ (cmp : α → α → Int) (fac : Option (φ → α)),
      Heap.pop cmp (⟨[], fac⟩ : Heap α φ) = (⟨[], fac⟩,
        .error (.error "Heap is empty, cannot pop element."))) ∧
    (∀ (fac : Option (φ → α)),
      Stack.peek (⟨[], fac⟩ : Stack α φ)
        = .error (.error "Cannot perform peek operation on empty stack.")) ∧
    (∀ (fac : Option (φ → α)),
      Queue.peek (⟨[], fac⟩ : Queue α φ)
        = .error (.error "Cannot perform peek operation on empty queue.")) ∧
    (∀ (fac : Option (φ → α)),
      Deque.popFront (⟨[], fac⟩ : Deque α φ) = (⟨[], fac⟩, .ok none)) ∧
    (∀ (fac : Option (φ → α)),
      Deque.popBack (⟨[], fac⟩ : Deque α φ) = (⟨[], fac⟩, .ok none)) ∧
    (∀ (fac : Option (φ → α)), Stack.top (⟨[], fac⟩ : Stack α φ) = none) ∧
    (∀ (fac : Option (φ → α)), Queue.front (⟨[], fac⟩ : Queue α φ) = none) ∧
    (∀ (fac : Option (φ → α)), Deque.front (⟨[], fac⟩ : Deque α φ) = none) ∧
    (∀ (fac : Option (φ → α)), Heap.peek (⟨[], fac⟩ : Heap α φ) = none) :=
  ⟨fun _ => rfl, fun _ => rfl, fun _ => rfl, fun _ => rfl, fun _ _ => rfl,
   fun _ => rfl, fun _ => rfl, fun _ => rfl, fun _ => rfl, fun _ => rfl,
   fun _ => rfl, fun _ => rfl, fun _ => rfl⟩

/-- C7 counterexample: writing through the `front` setter of an empty Deque
raises nothing — it is a silent no-op that completes normally. -/
theorem deque_setFront_empty_counterexample :
    Deque.setFront (⟨[], none⟩ : Deque Int Int) 5
      = (⟨[], none⟩, Except.ok ()) := rfl

/-- C7 (amended): on an empty linked list, writing through the `front` or
`back` setter fails with the EmptyContainer error; on an empty deque the
setters are silent no-ops that raise nothing and change nothing.  On any
non-empty container of either kind they replace the value at the existing
boundary node, leaving the length (and the rest of the sequence) unchanged. -/
theorem front_back_setter_spec :
    (∀ (fac : Option (φ → α)) (v : α),
      LinkedList.setFront (⟨[], fac⟩ : LinkedList α φ) v = (⟨[], fac⟩,
        .error (.error "front: cannot set front element of an empty linked list"))) ∧
    (∀ (fac : Option (φ → α)) (v : α),
      LinkedList.setBack (⟨[], fac⟩ : LinkedList α φ) v = (⟨[], fac⟩,
        .error (.error "back: cannot set back element of an empty linked list"))) ∧
    (∀ (l : LinkedList α φ) (v : α), l.values.length ≠ 0 →
      LinkedList.setFront l v = ({ l with values := l.values.set 0 v }, .ok ()) ∧
      (LinkedList.setFront l v).1.values.length = l.values.length) ∧
    (∀ (l : LinkedList α φ) (v : α), l.values.length ≠ 0 →
      LinkedList.setBack l v
        = ({ l with values := l.values.set (l.values.length - 1) v }, .ok ()) ∧
      (LinkedList.setBack l v).1.values.length = l.values.length) ∧
    (∀ (fac : Option (φ → α)) (v : α),
      Deque.setFront (⟨[], fac⟩ : Deque α φ) v = (⟨[], fac⟩, .ok ())) ∧
    (∀ (fac : Option (φ → α)) (v : α),
      Deque.setBack (⟨[], fac⟩ : Deque α φ) v = (⟨[], fac⟩, .ok ())) ∧
    (∀ (d : Deque α φ) (v : α), d.values.length ≠ 0 →
      Deque.setFront d v = ({ d with values := d.values.set 0 v }, .ok ()) ∧
      (Deque.setFront d v).1.values.length = d.values.length) ∧
    (∀ (d : Deque α φ) (v : α), d.values.length ≠ 0 →
      Deque.setBack d v
        = ({ d with values := d.values.set (d.values.length - 1) v }, .ok ()) ∧
      (Deque.setBack d v).1.values.length = d.values.length) := by
  refine ⟨fun _ _ => rfl, fun _ _ => rfl, ?_, ?_, fun _ _ => rfl,
    fun _ _ => rfl, ?_, ?_⟩
  · intro l v h
    rw [LinkedList.setFront, if_neg h]
    exact ⟨rfl, by simp⟩
  · intro l v h
    rw [LinkedList.setBack, if_neg h]
    exact ⟨rfl, by simp⟩
  · intro d v h
    rw [Deque.setFront, if_neg h]
    exact ⟨rfl, by simp⟩
  · intro d v h
    rw [Deque.setBack, if_neg h]
    exact ⟨rfl, by simp⟩

/-- C9: `remove(val, compareFn)` checks emptiness before validating
`compareFn`: on an empty list it returns 0 and raises nothing, for every
`val` and every second argument — including a non-invocable one; only on a
non-empty list is a non-invocable `compareFn` rejected with the TypeError. -/
theorem remove_empty_before_compareFn_check :
    (∀ (fac : Option (φ → α)) (v : α) (cf : FnArg (α → α → Bool)),
      LinkedList.remove (⟨[], fac⟩ : LinkedList α φ) v cf = (⟨[], fac⟩, .ok 0)) ∧
    (∀ (l : LinkedList α φ) (v : α), l.values.length ≠ 0 →
      LinkedList.remove l v .invalid
        = (l, .error (.typeError "compareFn must be a function"))) := by
  constructor
  · intro fac v cf
    rfl
  · intro l v h
    rw [LinkedList.remove, if_neg h]

/-- C10: `LinkedList.swap` exchanges exactly the `#head`/`#tail`/`#length`
triples (the chains) of the two lists; each list keeps the factory it was
constructed with, so an emplace on the first list after the swap still uses
that list's own factory (and still fails with NoFactory when it had none). -/
theorem swap_exchanges_chain_keeps_factory :
    ∀ (a b : LinkedList α φ),
      (LinkedList.swap a b).1.values.head? = b.values.head? ∧
      (LinkedList.swap a b).1.values.getLast? = b.values.getLast? ∧
      (LinkedList.swap a b).1.values.length = b.values.length ∧
      (LinkedList.swap a b).2.values.head? = a.values.head? ∧
      (LinkedList.swap a b).2.values.getLast? = a.values.getLast? ∧
      (LinkedList.swap a b).2.values.length = a.values.length ∧
      (LinkedList.swap a b).1.factory = a.factory ∧
      (LinkedList.swap a b).2.factory = b.factory ∧
      (∀ (f : φ → α) (args : φ), a.factory = some f →
        LinkedList.emplaceFront (LinkedList.swap a b).1 args
          = (⟨f args :: b.values, a.factory⟩, .ok ())) ∧
      (∀ (args : φ), a.factory = none →
        LinkedList.emplaceFront (LinkedList.swap a b).1 args
          = ((LinkedList.swap a b).1,
             .error (.error "emplaceFront: Factory function is not defined"))) := by
  intro a b
  refine ⟨rfl, rfl, rfl, rfl, rfl, rfl, rfl, rfl, ?_, ?_⟩
  · intro f args hf
    simp [LinkedList.swap, LinkedList.emplaceFront, LinkedList.pushFront, hf]
  · intro args hf
    simp [LinkedList.swap, LinkedList.emplaceFront, hf]

theorem insertAt_error_unchanged (l : LinkedList α φ) (v : α) (idx : Int)
    (e : JsError) (h : (LinkedList.insertAt l v idx).2 = .error e) :
    (LinkedList.insertAt l v idx).1 = l := by
  rw [LinkedList.insertAt] at h ⊢
  by_cases h1 : idx < 0 ∨ idx > l.values.length
  · rw [if_pos h1]
  · rw [if_neg h1] at h ⊢
    by_cases h2 : idx = 0
    · rw [if_pos h2] at h
      simp at h
    · rw [if_neg h2] at h ⊢
      by_cases h3 : idx = l.values.length
      · rw [if_pos h3] at h
        simp at h
      · rw [if_neg h3] at h
        simp at h

theorem popFront_error_unchanged (l : LinkedList α φ) (e : JsError)
    (h : (LinkedList.popFront l).2 = .error e) :
    (LinkedList.popFront l).1 = l := by
  obtain ⟨vals, fac⟩ := l
  cases vals with
  | nil => rfl
  | cons v rest => simp [LinkedList.popFront] at h

theorem popBack_error_unchanged (l : LinkedList α φ) (e : JsError)
    (h : (LinkedList.popBack l).2 = .error e) :
    (LinkedList.popBack l).1 = l := by
  rw [LinkedList.popBack] at h ⊢
  by_cases h0 : l.values.length = 0
  · rw [dif_pos h0]
  · rw [dif_neg h0] at h
    simp at h

theorem eraseAt_error_unchanged (l : LinkedList α φ) (idx : Int) (e : JsError)
    (h : (LinkedList.eraseAt l idx).2 = .error e) :
    (LinkedList.eraseAt l idx).1 = l := by
  rw [LinkedList.eraseAt] at h ⊢
  by_cases h0 : l.values.length = 0
  · rw [if_pos h0]
  · rw [if_neg h0] at h ⊢
    by_cases h1 : idx < 0 ∨ idx ≥ l.values.length
    · rw [if_pos h1]
    · rw [if_neg h1] at h ⊢
      by_cases h2 : idx = 0
      · rw [if_pos h2] at h ⊢
        exact popFront_error_unchanged l e h
      · rw [if_neg h2] at h ⊢
        by_cases h3 : idx = l.values.length - 1
        · rw [if_pos h3] at h ⊢
          exact popBack_error_unchanged l e h
        · rw [if_neg h3] at h
          simp at h

theorem assign_error_unchanged (l : LinkedList α φ) (a : AssignArgs α)
    (e : JsError) (h : (LinkedList.assign l a).2 = .error e) :
    (LinkedList.assign l a).1 = l := by
  cases a with
  | slice vs s stop =>
    rw [LinkedList.assign] at h ⊢
    by_cases h1 : s.getD 0 < 0 ∨ stop.getD vs.length > vs.length ∨
        s.getD 0 > stop.getD vs.length
    · rw [if_pos h1]
    · rw [if_neg h1] at h
      simp at h
  | fill count value =>
    rw [LinkedList.assign] at h ⊢
    by_cases h1 : count < 0
    · rw [if_pos h1]
    · rw [if_neg h1] at h
      simp at h
  | invalid => rfl

theorem emplaceFront_error_unchanged (l : LinkedList α φ) (args : φ)
    (e : JsError) (h : (LinkedList.emplaceFront l args).2 = .error e) :
    (LinkedList.emplaceFront l args).1 = l := by
  obtain ⟨vals, fac⟩ := l
  cases fac with
  | none => rfl
  | some f => simp [LinkedList.emplaceFront] at h

theorem emplaceBack_error_unchanged (l : LinkedList α φ) (args : φ)
    (e : JsError) (h : (LinkedList.emplaceBack l args).2 = .error e) :
    (LinkedList.emplaceBack l args).1 = l := by
  obtain ⟨vals, fac⟩ := l
  cases fac with
  | none => rfl
  | some f => simp [LinkedList.emplaceBack] at h

theorem emplaceAt_error_unchanged (l : LinkedList α φ) (idx : Int) (args : φ)
    (e : JsError) (h : (LinkedList.emplaceAt l idx args).2 = .error e) :
    (LinkedList.emplaceAt l idx args).1 = l := by
  obtain ⟨vals, fac⟩ := l
  cases fac with
  | none => rfl
  | some f =>
    have h' : (LinkedList.emplaceAt (⟨vals, some f⟩ : LinkedList α φ) idx args)
        = LinkedList.insertAt ⟨vals, some f⟩ (f args) idx := rfl
    rw [h'] at h ⊢
    exact insertAt_error_unchanged _ _ _ e h

theorem setFront_error_unchanged (l : LinkedList α φ) (v : α) (e : JsError)
    (h : (LinkedList.setFront l v).2 = .error e) :
    (LinkedList.setFront l v).1 = l := by
  rw [LinkedList.setFront] at h ⊢
  by_cases h0 : l.values.length = 0
  · rw [if_pos h0]
  · rw [if_neg h0] at h
    simp at h

theorem setBack_error_unchanged (l : LinkedList α φ) (v : α) (e : JsError)
    (h : (LinkedList.setBack l v).2 = .error e) :
    (LinkedList.setBack l v).1 = l := by
  rw [LinkedList.setBack] at h ⊢
  by_cases h0 : l.values.length = 0
  · rw [if_pos h0]
  · rw [if_neg h0] at h
    simp at h

theorem remove_error_unchanged (l : LinkedList α φ) (v : α)
    (cf : FnArg (α → α → Bool)) (e : JsError)
    (h : (LinkedList.remove l v cf).2 = .error e) :
    (LinkedList.remove l v cf).1 = l := by
  rw [LinkedList.remove.eq_def] at h ⊢
  by_cases h0 : l.values.length = 0
  · rw [if_pos h0]
  · rw [if_neg h0] at h ⊢
    cases cf with
    | invalid => rfl
    | fn f => simp at h

/-- C8: every public mutator of the linked list that raises an error leaves
the observable state (head, tail, length, element sequence, factory — all
determined by the `values`/`factory` state) exactly as it was before the
call: no partial mutation leaks.  Each conjunct says: if the operation's
result channel carries an error, the state it returns is the original. -/
theorem linkedList_mutators_error_atomic :
    (∀ (l : LinkedList α φ) (v : α) (idx : Int) (e : JsError),
      (LinkedList.insertAt l v idx).2 = .error e →
        (LinkedList.insertAt l v idx).1 = l) ∧
    (∀ (l : LinkedList α φ) (idx : Int) (e : JsError),
      (LinkedList.eraseAt l idx).2 = .error e →
        (LinkedList.eraseAt l idx).1 = l) ∧
    (∀ (l : LinkedList α φ) (a : AssignArgs α) (e : JsError),
      (LinkedList.assign l a).2 = .error e → (LinkedList.assign l a).1 = l) ∧
    (∀ (l : LinkedList α φ) (e : JsError),
      (LinkedList.popFront l).2 = .error e → (LinkedList.popFront l).1 = l) ∧
    (∀ (l : LinkedList α φ) (e : JsError),
      (LinkedList.popBack l).2 = .error e → (LinkedList.popBack l).1 = l) ∧
    (∀ (l : LinkedList α φ) (args : φ) (e : JsError),
      (LinkedList.emplaceFront l args).2 = .error e →
        (LinkedList.emplaceFront l args).1 = l) ∧
    (∀ (l : LinkedList α φ) (args : φ) (e : JsError),
      (LinkedList.emplaceBack l args).2 = .error e →
        (LinkedList.emplaceBack l args).1 = l) ∧
    (∀ (l : LinkedList α φ) (idx : Int) (args : φ) (e : JsError),
      (LinkedList.emplaceAt l idx args).2 = .error e →
        (LinkedList.emplaceAt l idx args).1 = l) ∧
    (∀ (l : LinkedList α φ) (v : α) (e : JsError),
      (LinkedList.setFront l v).2 = .error e → (LinkedList.setFront l v).1 = l) ∧
    (∀ (l : LinkedList α φ) (v : α) (e : JsError),
      (LinkedList.setBack l v).2 = .error e → (LinkedList.setBack l v).1 = l) ∧
    (∀ (l : LinkedList α φ) (v : α) (cf : FnArg (α → α → Bool)) (e : JsError),
      (LinkedList.remove l v cf).2 = .error e →
        (LinkedList.remove l v cf).1 = l) :=
  ⟨insertAt_error_unchanged, eraseAt_error_unchanged, assign_error_unchanged,
   popFront_error_unchanged, popBack_error_unchanged,
   emplaceFront_error_unchanged, emplaceBack_error_unchanged,
   emplaceAt_error_unchanged, setFront_error_unchanged,
   setBack_error_unchanged, remove_error_unchanged⟩

end ContainerClaims

end StlKit
